import Mathlib

/-!
Verification of the withings-weight-to-postgres sync program (src/main.py).

The embedding models:
* measurement groups and `Weight.from_measure` / `measures_to_weights`
  (the measurement normalizer),
* the `weight` table as a list of rows with `created_at` as primary key,
  the `INSERT ... ON CONFLICT DO NOTHING` batch insert and the
  `ORDER BY created_at DESC LIMIT 1` checkpoint query,
* the credential table (`get_credentials` / `save_credentials`, the latter
  as its two constituent statements: delete-all then insert),
* `ensure_credentials` with the probe call's outcome as an oracle,
* one iteration of the `monitor_weight` loop (`monitorCycle`), with the
  remote fetch outcome and the storage-failure outcome as oracles.

Timestamps (`arrow.Arrow` values in the source) are modelled as `Nat`;
measure values and the weight sentinel as `Int`; the opaque credential
blob as `Nat`.
-/

/-- Measurement types recognized by `Weight.from_measure` in src/main.py;
`other code` stands for every other member of the withings `MeasureType`
enumeration, which the source ignores. -/
inductive MeasureType where
  | weight
  | fat_mass_weight
  | muscle_mass
  | hydration
  | bone_mass
  | fat_ratio
  | fat_free_mass
  | other (code : Nat)
deriving DecidableEq

/-- One `(type, value)` pair of a remote measurement group. -/
structure Measure where
  type : MeasureType
  value : Int
deriving DecidableEq

/-- A remote measurement group: one timestamp (`created`) and its measures. -/
structure MeasureGroup where
  created : Nat
  measures : List Measure
deriving DecidableEq

/-- One row of the `weight` table / one normalized record (class `Weight`
in src/main.py). `created_at` is the primary key. -/
structure Weight where
  created_at : Nat
  weight : Int
  fat_mass : Option Int
  muscle_mass : Option Int
  hydration : Option Int
  bone_mass : Option Int
  fat_ratio : Option Int
  fat_free_mass : Option Int
deriving DecidableEq

/-- One arm of the `for measure in measure_group.measures` loop body of
`Weight.from_measure`: a recognized measure type overwrites the matching
field, every other type leaves the record unchanged. -/
def Weight.applyMeasure (w : Weight) (m : Measure) : Weight :=
  match m.type with
  | .weight => { w with weight := m.value }
  | .fat_mass_weight => { w with fat_mass := some m.value }
  | .muscle_mass => { w with muscle_mass := some m.value }
  | .hydration => { w with hydration := some m.value }
  | .bone_mass => { w with bone_mass := some m.value }
  | .fat_ratio => { w with fat_ratio := some m.value }
  | .fat_free_mass => { w with fat_free_mass := some m.value }
  | .other _ => w

/-- `Weight.from_measure` of src/main.py: start from the record with
`created_at` set to the group's timestamp, `weight = -1` and all optional
fields absent, then fold the group's measures over the loop body. -/
def Weight.from_measure (g : MeasureGroup) : Weight :=
  g.measures.foldl Weight.applyMeasure
    { created_at := g.created
      weight := -1
      fat_mass := none
      muscle_mass := none
      hydration := none
      bone_mass := none
      fat_ratio := none
      fat_free_mass := none }

/-- The `logging.error` in `Weight.from_measure` fires exactly when the
resulting weight is negative (`if weight.weight < 0`). -/
def fromMeasureWarns (g : MeasureGroup) : Bool :=
  (Weight.from_measure g).weight < 0

/-- Value of the last measure of type `t` in `ms`, if any: the value the
sequential overwrites of `Weight.from_measure` leave behind. -/
def lastValueOf (t : MeasureType) (ms : List Measure) : Option Int :=
  ms.foldl (fun acc m => if m.type = t then some m.value else acc) none

theorem lastValueOf_append (t : MeasureType) (ms : List Measure) (m : Measure) :
    lastValueOf t (ms ++ [m]) = if m.type = t then some m.value else lastValueOf t ms := by
  simp [lastValueOf, List.foldl_append]

theorem foldl_applyMeasure (ms : List Measure) (w : Weight) :
    List.foldl Weight.applyMeasure w ms =
      { created_at := w.created_at
        weight := (lastValueOf .weight ms).getD w.weight
        fat_mass := (lastValueOf .fat_mass_weight ms).elim w.fat_mass some
        muscle_mass := (lastValueOf .muscle_mass ms).elim w.muscle_mass some
        hydration := (lastValueOf .hydration ms).elim w.hydration some
        bone_mass := (lastValueOf .bone_mass ms).elim w.bone_mass some
        fat_ratio := (lastValueOf .fat_ratio ms).elim w.fat_ratio some
        fat_free_mass := (lastValueOf .fat_free_mass ms).elim w.fat_free_mass some } := by
  induction ms using List.reverseRecOn with
  | nil => rfl
  | append_singleton l m ih =>
      rw [List.foldl_append, ih]
      obtain ⟨mt, mv⟩ := m
      cases mt <;> simp [Weight.applyMeasure, lastValueOf_append]

theorem optionElimNoneSome {α : Type} (o : Option α) : o.elim none some = o := by
  cases o <;> rfl

/-- Closed form of `Weight.from_measure`. -/
theorem from_measure_eq (g : MeasureGroup) :
    Weight.from_measure g =
      { created_at := g.created
        weight := (lastValueOf .weight g.measures).getD (-1)
        fat_mass := lastValueOf .fat_mass_weight g.measures
        muscle_mass := lastValueOf .muscle_mass g.measures
        hydration := lastValueOf .hydration g.measures
        bone_mass := lastValueOf .bone_mass g.measures
        fat_ratio := lastValueOf .fat_ratio g.measures
        fat_free_mass := lastValueOf .fat_free_mass g.measures } := by
  unfold Weight.from_measure
  rw [foldl_applyMeasure]
  simp [optionElimNoneSome]

theorem from_measure_created (g : MeasureGroup) :
    (Weight.from_measure g).created_at = g.created := by
  rw [from_measure_eq]

/-- C10: `Weight.from_measure` sets `created_at` to the group's timestamp;
each of the seven record fields takes the value of the last measure of its
recognized type in the group's measure list; measures of any other type
leave the record unchanged; fields with no matching measure remain absent,
with `weight` defaulting to the sentinel `-1`. -/
theorem c10_from_measure_fields (g : MeasureGroup) (w : Weight) (code : Nat) (v : Int) :
    (Weight.from_measure g).created_at = g.created ∧
    (Weight.from_measure g).weight = (lastValueOf .weight g.measures).getD (-1) ∧
    (Weight.from_measure g).fat_mass = lastValueOf .fat_mass_weight g.measures ∧
    (Weight.from_measure g).muscle_mass = lastValueOf .muscle_mass g.measures ∧
    (Weight.from_measure g).hydration = lastValueOf .hydration g.measures ∧
    (Weight.from_measure g).bone_mass = lastValueOf .bone_mass g.measures ∧
    (Weight.from_measure g).fat_ratio = lastValueOf .fat_ratio g.measures ∧
    (Weight.from_measure g).fat_free_mass = lastValueOf .fat_free_mass g.measures ∧
    Weight.applyMeasure w { type := .other code, value := v } = w := by
  rw [from_measure_eq]
  refine ⟨rfl, rfl, rfl, rfl, rfl, rfl, rfl, rfl, rfl⟩

/-- Keys (primary keys / timestamps) of the insertion-ordered mapping. -/
def keysOf (d : List (Nat × Weight)) : List Nat := d.map Prod.fst

/-- Value stored under key `k`, if any. -/
def lookupKey (d : List (Nat × Weight)) (k : Nat) : Option Weight :=
  (d.find? (fun p => p.1 == k)).map Prod.snd

/-- Python dict assignment `weights[k] = v` on an insertion-ordered mapping:
an existing entry for `k` is overwritten in place, a new key is appended. -/
def dictInsert : List (Nat × Weight) → Nat → Weight → List (Nat × Weight)
  | [], k, v => [(k, v)]
  | p :: rest, k, v => if p.1 = k then (k, v) :: rest else p :: dictInsert rest k v

/-- The `weights` dict built by `measures_to_weights` in src/main.py:
`weights[weight.created_at] = weight` for each group, in order. -/
def weightsDict (groups : List MeasureGroup) : List (Nat × Weight) :=
  groups.foldl
    (fun d g => dictInsert d (Weight.from_measure g).created_at (Weight.from_measure g)) []

/-- `measures_to_weights` of src/main.py: the dict's values sorted
ascending by `created_at` (Python `sorted` with key `w.created_at`). -/
def measures_to_weights (groups : List MeasureGroup) : List Weight :=
  List.insertionSort (fun a b => a.created_at ≤ b.created_at)
    ((weightsDict groups).map Prod.snd)

/-- The last group in `groups` whose timestamp is `t`, if any. -/
def lastGroupAt (groups : List MeasureGroup) (t : Nat) : Option MeasureGroup :=
  groups.foldl (fun acc g => if g.created = t then some g else acc) none

theorem lastGroupAt_append (groups : List MeasureGroup) (g : MeasureGroup) (t : Nat) :
    lastGroupAt (groups ++ [g]) t =
      if g.created = t then some g else lastGroupAt groups t := by
  simp [lastGroupAt, List.foldl_append]

theorem lastGroupAt_mem {groups : List MeasureGroup} {t : Nat} {g : MeasureGroup}
    (h : lastGroupAt groups t = some g) : g ∈ groups ∧ g.created = t := by
  induction groups using List.reverseRecOn with
  | nil => simp [lastGroupAt] at h
  | append_singleton gs g' ih =>
      rw [lastGroupAt_append] at h
      by_cases hc : g'.created = t
      · rw [if_pos hc] at h
        cases h
        exact ⟨List.mem_append_right _ (List.mem_singleton_self _), hc⟩
      · rw [if_neg hc] at h
        obtain ⟨hm, ht⟩ := ih h
        exact ⟨List.mem_append_left _ hm, ht⟩

theorem exists_lastGroupAt {groups : List MeasureGroup} {t : Nat}
    (h : ∃ g ∈ groups, g.created = t) : ∃ g', lastGroupAt groups t = some g' := by
  induction groups using List.reverseRecOn with
  | nil => simp at h
  | append_singleton gs g' ih =>
      rw [lastGroupAt_append]
      by_cases hc : g'.created = t
      · exact ⟨g', by rw [if_pos hc]⟩
      · rw [if_neg hc]
        obtain ⟨g, hg, hgt⟩ := h
        rcases List.mem_append.mp hg with hg | hg
        · exact ih ⟨g, hg, hgt⟩
        · rw [List.mem_singleton.mp hg] at hgt
          exact absurd hgt hc

theorem lookupKey_cons (p : Nat × Weight) (rest : List (Nat × Weight)) (q : Nat) :
    lookupKey (p :: rest) q = if p.1 = q then some p.2 else lookupKey rest q := by
  by_cases h : p.1 = q <;> simp [lookupKey, List.find?_cons, h]

theorem lookupKey_dictInsert (d : List (Nat × Weight)) (k : Nat) (v : Weight) (q : Nat) :
    lookupKey (dictInsert d k v) q = if q = k then some v else lookupKey d q := by
  induction d with
  | nil =>
      by_cases h : q = k
      · simp [dictInsert, lookupKey, List.find?_cons, h]
      · have h1 : ¬ ((k : Nat) = q) := fun hh => h hh.symm
        simp [dictInsert, lookupKey, List.find?_cons, h, h1]
  | cons p rest ih =>
      by_cases h : p.1 = k
      · rw [dictInsert, if_pos h, lookupKey_cons, lookupKey_cons]
        by_cases hq : q = k
        · simp [hq]
        · have h1 : ¬ ((k : Nat) = q) := fun hh => hq hh.symm
          have h2 : ¬ (p.1 = q) := by rw [h]; exact h1
          simp [hq, h1, h2]
      · rw [dictInsert, if_neg h, lookupKey_cons, lookupKey_cons, ih]
        by_cases hpq : p.1 = q
        · have : ¬ (q = k) := fun hh => h (hpq.trans hh)
          simp [hpq, this]
        · simp [hpq]

theorem keysOf_dictInsert (d : List (Nat × Weight)) (k : Nat) (v : Weight) :
    keysOf (dictInsert d k v) =
      if k ∈ keysOf d then keysOf d else keysOf d ++ [k] := by
  induction d with
  | nil => simp [dictInsert, keysOf]
  | cons p rest ih =>
      by_cases h : p.1 = k
      · have hk : k ∈ keysOf (p :: rest) := by
          simp only [keysOf, List.map_cons, List.mem_cons]
          exact Or.inl h.symm
        rw [dictInsert, if_pos h, if_pos hk]
        simp only [keysOf, List.map_cons]
        rw [h]
      · rw [dictInsert, if_neg h]
        simp only [keysOf, List.map_cons] at ih ⊢
        rw [ih]
        by_cases hm : k ∈ List.map Prod.fst rest
        · have hk : k ∈ p.1 :: List.map Prod.fst rest := List.mem_cons_of_mem _ hm
          rw [if_pos hm, if_pos hk]
        · have hk : k ∉ p.1 :: List.map Prod.fst rest := by
            intro hh
            rcases List.mem_cons.mp hh with hh | hh
            · exact h hh.symm
            · exact hm hh
          rw [if_neg hm, if_neg hk]
          rfl

theorem keysOf_nodup_dictInsert (d : List (Nat × Weight)) (k : Nat) (v : Weight)
    (h : (keysOf d).Nodup) : (keysOf (dictInsert d k v)).Nodup := by
  rw [keysOf_dictInsert]
  by_cases hm : k ∈ keysOf d
  · rw [if_pos hm]; exact h
  · rw [if_neg hm]
    simp [List.nodup_append, h, hm]

theorem mem_dictInsert (d : List (Nat × Weight)) (k : Nat) (v : Weight)
    (p : Nat × Weight) (hnd : (keysOf d).Nodup) :
    p ∈ dictInsert d k v ↔ p = (k, v) ∨ (p ∈ d ∧ p.1 ≠ k) := by
  induction d with
  | nil => simp [dictInsert]
  | cons q rest ih =>
      have hq : q.1 ∉ keysOf rest := by
        simp only [keysOf, List.map_cons, List.nodup_cons] at hnd
        exact hnd.1
      have hrest : (keysOf rest).Nodup := by
        simp only [keysOf, List.map_cons, List.nodup_cons] at hnd
        exact hnd.2
      by_cases h : q.1 = k
      · rw [dictInsert, if_pos h]
        constructor
        · intro hp
          rcases List.mem_cons.mp hp with hp | hp
          · exact Or.inl hp
          · refine Or.inr ⟨List.mem_cons_of_mem _ hp, ?_⟩
            intro hpk
            apply hq
            have hmem : p.1 ∈ keysOf rest := by
              simp only [keysOf]
              exact List.mem_map_of_mem Prod.fst hp
            have hqp : q.1 = p.1 := by rw [h, ← hpk]
            rw [hqp]
            exact hmem
        · rintro (rfl | ⟨hp, hpk⟩)
          · exact List.mem_cons_self _ _
          · rcases List.mem_cons.mp hp with rfl | hp
            · exact absurd h hpk
            · exact List.mem_cons_of_mem _ hp
      · rw [dictInsert, if_neg h]
        constructor
        · intro hp
          rcases List.mem_cons.mp hp with rfl | hp
          · exact Or.inr ⟨List.mem_cons_self _ _, h⟩
          · rcases (ih hrest).mp hp with rfl | ⟨hp, hpk⟩
            · exact Or.inl rfl
            · exact Or.inr ⟨List.mem_cons_of_mem _ hp, hpk⟩
        · rintro (rfl | ⟨hp, hpk⟩)
          · exact List.mem_cons_of_mem _ ((ih hrest).mpr (Or.inl rfl))
          · rcases List.mem_cons.mp hp with rfl | hp
            · exact List.mem_cons_self _ _
            · exact List.mem_cons_of_mem _ ((ih hrest).mpr (Or.inr ⟨hp, hpk⟩))

/-- Invariants of the `weights` dict built by `measures_to_weights`: keys
are distinct, the entry under a timestamp is `Weight.from_measure` of the
last group carrying that timestamp, and every stored record carries its
key as its `created_at`. -/
theorem weightsDict_good (groups : List MeasureGroup) :
    (keysOf (weightsDict groups)).Nodup ∧
    (∀ t, lookupKey (weightsDict groups) t =
      (lastGroupAt groups t).map Weight.from_measure) ∧
    (∀ p ∈ weightsDict groups, p.2.created_at = p.1 ∧
      (lastGroupAt groups p.1).map Weight.from_measure = some p.2) := by
  induction groups using List.reverseRecOn with
  | nil =>
      refine ⟨by simp [weightsDict, keysOf], ?_, by simp [weightsDict]⟩
      intro t
      simp [weightsDict, lookupKey, lastGroupAt]
  | append_singleton gs g ih =>
      obtain ⟨h1, h2, h3⟩ := ih
      have hw : weightsDict (gs ++ [g]) =
          dictInsert (weightsDict gs) g.created (Weight.from_measure g) := by
        simp [weightsDict, List.foldl_append, from_measure_created]
      refine ⟨?_, ?_, ?_⟩
      · rw [hw]
        exact keysOf_nodup_dictInsert _ _ _ h1
      · intro t
        rw [hw, lookupKey_dictInsert, lastGroupAt_append]
        by_cases ht : t = g.created
        · simp [ht]
        · have ht' : ¬ (g.created = t) := fun hh => ht hh.symm
          simp [ht, ht', h2 t]
      · intro p hp
        rw [hw, mem_dictInsert _ _ _ _ h1] at hp
        rcases hp with rfl | ⟨hpd, hpk⟩
        · refine ⟨from_measure_created g, ?_⟩
          rw [lastGroupAt_append]
          simp
        · obtain ⟨hc, hl⟩ := h3 p hpd
          refine ⟨hc, ?_⟩
          rw [lastGroupAt_append]
          have hne : ¬ (g.created = p.1) := fun hh => hpk hh.symm
          rw [if_neg hne]
          exact hl

theorem lookupKey_mem {d : List (Nat × Weight)} {q : Nat} {w : Weight}
    (h : lookupKey d q = some w) : ∃ p ∈ d, p.1 = q ∧ p.2 = w := by
  unfold lookupKey at h
  cases hf : d.find? (fun p => p.1 == q) with
  | none => rw [hf] at h; simp at h
  | some p =>
      rw [hf] at h
      simp only [Option.map_some'] at h
      have hm := List.mem_of_find?_eq_some hf
      have hq := List.find?_some hf
      refine ⟨p, hm, ?_, Option.some.inj h⟩
      simpa using hq

/-- C3: `measures_to_weights` yields exactly one record per distinct
timestamp of the input groups; the record for a timestamp is
`Weight.from_measure` of the last group carrying that timestamp (so when
two groups share a timestamp the later group's values win for overlapping
measure types); and the output is sorted ascending by timestamp. -/
theorem c3_normalize (groups : List MeasureGroup) :
    ((measures_to_weights groups).map (fun w => w.created_at)).Nodup ∧
    (∀ t, (∃ g ∈ groups, g.created = t) ↔
      ∃ w ∈ measures_to_weights groups, w.created_at = t) ∧
    (∀ w ∈ measures_to_weights groups,
      ∃ g, lastGroupAt groups w.created_at = some g ∧ w = Weight.from_measure g) ∧
    List.Sorted (fun a b => a.created_at ≤ b.created_at) (measures_to_weights groups) := by
  obtain ⟨hnd, hlk, hmem⟩ := weightsDict_good groups
  have hperm : (measures_to_weights groups).Perm ((weightsDict groups).map Prod.snd) :=
    List.perm_insertionSort _ _
  haveI htot : IsTotal Weight (fun a b => a.created_at ≤ b.created_at) :=
    ⟨fun a b => Nat.le_total _ _⟩
  haveI htr : IsTrans Weight (fun a b => a.created_at ≤ b.created_at) :=
    ⟨fun _ _ _ hab hbc => Nat.le_trans hab hbc⟩
  refine ⟨?_, ?_, ?_, List.sorted_insertionSort _ _⟩
  · have h1 : ((weightsDict groups).map Prod.snd).map (fun w => w.created_at)
        = keysOf (weightsDict groups) := by
      rw [List.map_map]
      simp only [keysOf]
      apply List.map_congr_left
      intro p hp
      exact (hmem p hp).1
    have h2 : ((measures_to_weights groups).map (fun w => w.created_at)).Perm
        (((weightsDict groups).map Prod.snd).map (fun w => w.created_at)) :=
      hperm.map _
    rw [h1] at h2
    exact h2.nodup_iff.mpr hnd
  · intro t
    constructor
    · rintro ⟨g, hg, hgt⟩
      obtain ⟨g', hg'⟩ := exists_lastGroupAt ⟨g, hg, hgt⟩
      have hl : lookupKey (weightsDict groups) t = some (Weight.from_measure g') := by
        rw [hlk t, hg']
        rfl
      obtain ⟨p, hp, hp1, hp2⟩ := lookupKey_mem hl
      refine ⟨p.2, hperm.mem_iff.mpr (List.mem_map_of_mem Prod.snd hp), ?_⟩
      rw [(hmem p hp).1, hp1]
    · rintro ⟨w, hw, hwt⟩
      have hw' : w ∈ (weightsDict groups).map Prod.snd := hperm.mem_iff.mp hw
      obtain ⟨p, hp, hpw⟩ := List.mem_map.mp hw'
      obtain ⟨hc, hl⟩ := hmem p hp
      cases hg : lastGroupAt groups p.1 with
      | none => rw [hg] at hl; simp at hl
      | some g =>
          obtain ⟨hgm, hgt⟩ := lastGroupAt_mem hg
          refine ⟨g, hgm, ?_⟩
          rw [hgt, ← hc, hpw, hwt]
  · intro w hw
    have hw' : w ∈ (weightsDict groups).map Prod.snd := hperm.mem_iff.mp hw
    obtain ⟨p, hp, hpw⟩ := List.mem_map.mp hw'
    obtain ⟨hc, hl⟩ := hmem p hp
    cases hg : lastGroupAt groups p.1 with
    | none => rw [hg] at hl; simp at hl
    | some g =>
        rw [hg] at hl
        simp only [Option.map_some'] at hl
        refine ⟨g, ?_, ?_⟩
        · rw [← hpw, hc]
          exact hg
        · rw [← hpw]
          exact (Option.some.inj hl).symm

/-- Whether the `weight` table already holds a row with primary key `k`. -/
def hasKey (table : List Weight) (k : Nat) : Bool :=
  table.any (fun w => w.created_at == k)

/-- Semantics of the batch statement
`insert(weight).values(data).on_conflict_do_nothing()` executed in
`monitor_weight`: each record whose primary key is already present is
skipped (no update, no error); the others are appended. Returns the new
table and the statement's `rowcount` (rows actually written). -/
def insertBatch : List Weight → List Weight → List Weight × Nat
  | table, [] => (table, 0)
  | table, w :: rest =>
    if hasKey table w.created_at then insertBatch table rest
    else
      let r := insertBatch (table ++ [w]) rest
      (r.1, r.2 + 1)

theorem hasKey_append (table : List Weight) (w : Weight) (k : Nat) :
    hasKey (table ++ [w]) k = (hasKey table k || (w.created_at == k)) := by
  simp [hasKey, List.any_append]

theorem hasKey_insertBatch_of (batch : List Weight) (table : List Weight) (k : Nat)
    (h : hasKey table k = true) : hasKey (insertBatch table batch).1 k = true := by
  induction batch generalizing table with
  | nil => exact h
  | cons w rest ih =>
      rw [insertBatch]
      by_cases hk : hasKey table w.created_at
      · rw [if_pos hk]
        exact ih table h
      · rw [if_neg hk]
        exact ih (table ++ [w]) (by rw [hasKey_append, h]; rfl)

theorem hasKey_insertBatch_mem (batch : List Weight) (table : List Weight) (w : Weight)
    (h : w ∈ batch) : hasKey (insertBatch table batch).1 w.created_at = true := by
  induction batch generalizing table with
  | nil => simp at h
  | cons x rest ih =>
      rw [insertBatch]
      rcases List.mem_cons.mp h with rfl | h
      · by_cases hk : hasKey table w.created_at
        · rw [if_pos hk]
          exact hasKey_insertBatch_of rest table _ hk
        · rw [if_neg hk]
          exact hasKey_insertBatch_of rest (table ++ [w]) _
            (by rw [hasKey_append]; simp)
      · by_cases hk : hasKey table x.created_at
        · rw [if_pos hk]
          exact ih table h
        · rw [if_neg hk]
          exact ih (table ++ [x]) h

theorem insertBatch_all_present (batch : List Weight) (table : List Weight)
    (h : ∀ w ∈ batch, hasKey table w.created_at = true) :
    insertBatch table batch = (table, 0) := by
  induction batch with
  | nil => rfl
  | cons w rest ih =>
      rw [insertBatch, if_pos (h w (List.mem_cons_self _ _))]
      exact ih (fun x hx => h x (List.mem_cons_of_mem _ hx))

/-- C1: the batch insert is idempotent — a second application of the same
batch leaves the table identical and reports an insert count of 0; and a
record whose primary key already exists is skipped with no update and no
error. -/
theorem c1_insertBatch_idempotent (table batch : List Weight) :
    insertBatch (insertBatch table batch).1 batch = ((insertBatch table batch).1, 0) ∧
    (∀ w, hasKey table w.created_at = true → insertBatch table [w] = (table, 0)) := by
  constructor
  · exact insertBatch_all_present batch _
      (fun w hw => hasKey_insertBatch_mem batch table w hw)
  · intro w hw
    exact insertBatch_all_present [w] table
      (fun x hx => by rw [List.mem_singleton.mp hx]; exact hw)

/-- The checkpoint query of `get_last_weight_timestamp` in src/main.py:
`SELECT ... ORDER BY created_at DESC LIMIT 1`, i.e. the head of the table
sorted descending by `created_at`; `none` when the table is empty. -/
def get_last_weight_timestamp (table : List Weight) : Option Nat :=
  ((List.insertionSort (fun a b => b.created_at ≤ a.created_at) table).head?).map
    (fun w => w.created_at)

/-- Outcome of the remote call `withings.measure_get_meas(...)` in the
sync loop, as an oracle: a successful response (possibly after the API
client silently refreshed the token via the injected callback), an
`AuthFailedException`, or any other remote failure. -/
inductive FetchResult where
  | ok (measures : List MeasureGroup)
  | authError
  | remoteError
deriving DecidableEq

/-- Uncaught exception terminating an iteration of `monitor_weight`. -/
inductive CycleError where
  | authFail
  | remoteFail
  | negativeSleep
deriving DecidableEq

/-- Result of one iteration of the `monitor_weight` loop. `next` carries
the table handed to the next cycle, the reported insert count, whether a
storage failure was caught and logged, and the sleep duration; `crash`
means an exception propagated out of the loop (process death), carrying
the table as committed at that point. -/
inductive CycleResult where
  | next (table : List Weight) (inserted : Nat) (storageFailureLogged : Bool) (slept : Int)
  | crash (e : CycleError) (table : List Weight)
deriving DecidableEq

/-- Per-iteration oracles: the remote fetch outcome as a function of the
requested start bound, whether the insert statement raises
`SQLAlchemyError`, and the iteration's elapsed whole seconds
(`(Arrow.now() - start_time).seconds`, a non-negative value). -/
structure CycleInput where
  fetch : Option Nat → FetchResult
  insertFails : Bool
  elapsed : Nat

/-- Line 248 of src/main.py:
`sleep_for = conf.refresh_seconds - (Arrow.now() - start_time).seconds`.
No clamping is applied. -/
def sleep_for (refresh_seconds : Int) (elapsed : Nat) : Int :=
  refresh_seconds - elapsed

/-- The `with conn.begin(): try ... except SQLAlchemyError` block of
`monitor_weight`: the batch is one insert statement, which either applies
as a whole or raises; a raise is caught inside the block and logged, so
control continues with the table unchanged. Returns the table, the
reported insert count, and whether a storage failure was logged. -/
def insertTransaction (table : List Weight) (batch : List Weight) (fails : Bool) :
    List Weight × Nat × Bool :=
  if fails then (table, 0, true)
  else
    let r := insertBatch table batch
    (r.1, r.2, false)

/-- One iteration of the `while True` loop of `monitor_weight`:
recompute the checkpoint from the table, fetch since it (an uncaught
fetch exception propagates), normalize, insert inside the
transaction-with-catch block, then `sleep(sleep_for)` — where a negative
argument makes Python's `sleep` raise `ValueError`, uncaught. -/
def monitorCycle (refresh_seconds : Int) (table : List Weight) (inp : CycleInput) :
    CycleResult :=
  match inp.fetch (get_last_weight_timestamp table) with
  | .authError => .crash .authFail table
  | .remoteError => .crash .remoteFail table
  | .ok ms =>
      let ws := measures_to_weights ms
      let r := insertTransaction table ws inp.insertFails
      let sf := sleep_for refresh_seconds inp.elapsed
      if sf < 0 then .crash .negativeSleep r.1
      else .next r.1 r.2.1 r.2.2 sf

/-- The `credentials` table: its rows, each an opaque serialized
credential blob (modelled as `Nat`). -/
def get_credentials (store : List Nat) : Option Nat :=
  store.head?

/-- First statement of `save_credentials`: `credentials.delete()`. -/
def credentials_delete (_store : List Nat) : List Nat := []

/-- Second statement of `save_credentials`:
`credentials.insert().values(...)`. -/
def credentials_insert (store : List Nat) (creds : Nat) : List Nat :=
  store ++ [creds]

/-- `save_credentials` of src/main.py: delete all rows, then insert the
new blob. The two statements are not wrapped in a transaction. -/
def save_credentials (store : List Nat) (creds : Nat) : List Nat :=
  credentials_insert (credentials_delete store) creds

/-- The credential-table states a concurrent reader can observe while
`save_credentials` runs: before, between the two statements, after. -/
def replaceStates (store : List Nat) (creds : Nat) : List (List Nat) :=
  [store, credentials_delete store,
    credentials_insert (credentials_delete store) creds]

/-- The closure built by `build_token_refresh_callback`: persists a
refreshed credential via `save_credentials`. -/
def refresh_callback (store : List Nat) (creds : Nat) : List Nat :=
  save_credentials store creds

/-- Outcome of the lightweight authenticated probe
`WithingsApi(existing_creds).measure_get_meas()` in `ensure_credentials`,
as an oracle: success, an `AuthFailedException`, or any other exception. -/
inductive ProbeResult where
  | ok
  | authFailed
  | otherError
deriving DecidableEq

/-- Result of `ensure_credentials`: a credential together with whether the
re-authorization handshake ran, or a fatal propagated exception. -/
inductive EnsureResult where
  | returned (creds : Nat) (reauthorized : Bool)
  | fatal
deriving DecidableEq

/-- `ensure_credentials` of src/main.py: load the stored credential; if
present, probe it once — on success return it unchanged, on
`AuthFailedException` fall through to the re-authorization handshake
(which yields `fresh`), and on any other exception propagate (fatal);
with no stored credential go straight to the handshake. -/
def ensure_credentials (stored : Option Nat) (probe : Nat → ProbeResult)
    (fresh : Nat) : EnsureResult :=
  match stored with
  | some c =>
      match probe c with
      | .ok => .returned c false
      | .authFailed => .returned fresh true
      | .otherError => .fatal
  | none => .returned fresh true

/-- C8: with a stored credential, `ensure_credentials` makes one probe
call; on success the stored credential is returned unchanged, on an
authorization failure it proceeds to re-authorization, and any other
failure of the probe propagates as fatal. -/
theorem c8_ensure_credentials (c fresh : Nat) (probe : Nat → ProbeResult) :
    (probe c = .ok → ensure_credentials (some c) probe fresh = .returned c false) ∧
    (probe c = .authFailed →
      ensure_credentials (some c) probe fresh = .returned fresh true) ∧
    (probe c = .otherError → ensure_credentials (some c) probe fresh = .fatal) := by
  refine ⟨fun h => ?_, fun h => ?_, fun h => ?_⟩ <;> simp [ensure_credentials, h]

theorem c8_witness :
    ensure_credentials (some 5) (fun _ => ProbeResult.ok) 9
      = EnsureResult.returned 5 false ∧
    ensure_credentials (some 5) (fun _ => ProbeResult.authFailed) 9
      = EnsureResult.returned 9 true ∧
    ensure_credentials (some 5) (fun _ => ProbeResult.otherError) 9
      = EnsureResult.fatal :=
  ⟨(c8_ensure_credentials 5 9 (fun _ => ProbeResult.ok)).1 rfl,
   (c8_ensure_credentials 5 9 (fun _ => ProbeResult.authFailed)).2.1 rfl,
   (c8_ensure_credentials 5 9 (fun _ => ProbeResult.otherError)).2.2 rfl⟩

/-- C5 counterexample: during `save_credentials` on a store holding one
credential, the state between the delete and the insert is reachable by
an interleaved `get_credentials`, and there it observes zero
credentials — the claim that a concurrent `Load` never observes zero
credentials during `Replace` is false. -/
theorem c5_counterexample :
    (replaceStates [5] 7)[1]? = some [] ∧
    get_credentials (credentials_delete [5]) = none ∧
    (credentials_delete [5]).length = 0 := by
  decide

/-- C5 amended: every state reachable during `save_credentials` holds at
most one credential row (an interleaved `Load` never observes two), and
the final state holds exactly the new credential; but the intermediate
state (after the delete, before the insert) holds zero rows, so an
interleaved `Load` there observes no credential. -/
theorem c5_replace_states (store : List Nat) (creds : Nat) (h : store.length ≤ 1) :
    (∀ s ∈ replaceStates store creds, s.length ≤ 1) ∧
    save_credentials store creds = [creds] ∧
    get_credentials (save_credentials store creds) = some creds ∧
    get_credentials (credentials_delete store) = none := by
  refine ⟨?_, rfl, rfl, rfl⟩
  intro s hs
  simp only [replaceStates, credentials_delete, credentials_insert,
    List.mem_cons, List.mem_singleton, List.nil_append] at hs
  rcases hs with rfl | rfl | (rfl | hs)
  · exact h
  · simp
  · simp
  · simp at hs

theorem c5_witness :
    (credentials_delete [5]).length ≤ 1 ∧
    save_credentials [5] 7 = [7] ∧
    get_credentials (credentials_delete [5]) = none :=
  ⟨(c5_replace_states [5] 7 (by decide)).1 (credentials_delete [5])
      (by simp [replaceStates]),
   (c5_replace_states [5] 7 (by decide)).2.1,
   (c5_replace_states [5] 7 (by decide)).2.2.2⟩

/-- C2: the checkpoint is recomputed from the durable table each cycle:
`get_last_weight_timestamp` is `none` exactly on the empty table (so the
fetch requests the full history), otherwise the maximum `created_at`
stored; and one loop iteration depends on the remote fetch only through
its value at that recomputed bound — no separate in-memory timestamp
enters the cycle. -/
theorem c2_checkpoint (table : List Weight) :
    (table = [] → get_last_weight_timestamp table = none) ∧
    (∀ m, get_last_weight_timestamp table = some m →
      (∃ w ∈ table, w.created_at = m) ∧ ∀ w ∈ table, w.created_at ≤ m) ∧
    (table ≠ [] → ∃ m, get_last_weight_timestamp table = some m) ∧
    (∀ refresh_seconds fails elapsed (f₁ f₂ : Option Nat → FetchResult),
      f₁ (get_last_weight_timestamp table) = f₂ (get_last_weight_timestamp table) →
      monitorCycle refresh_seconds table ⟨f₁, fails, elapsed⟩ =
        monitorCycle refresh_seconds table ⟨f₂, fails, elapsed⟩) := by
  haveI : IsTotal Weight (fun a b => b.created_at ≤ a.created_at) :=
    ⟨fun a b => Nat.le_total b.created_at a.created_at⟩
  haveI : IsTrans Weight (fun a b => b.created_at ≤ a.created_at) :=
    ⟨fun _ _ _ hab hbc => Nat.le_trans hbc hab⟩
  refine ⟨?_, ?_, ?_, ?_⟩
  · intro h
    subst h
    rfl
  · intro m hm
    unfold get_last_weight_timestamp at hm
    cases hs2 : List.insertionSort (fun a b => b.created_at ≤ a.created_at) table with
    | nil => rw [hs2] at hm; simp at hm
    | cons a l =>
        rw [hs2] at hm
        simp only [List.head?_cons, Option.map_some', Option.some.injEq] at hm
        have hperm := List.perm_insertionSort (fun a b => b.created_at ≤ a.created_at) table
        have hsort := List.sorted_insertionSort (fun a b => b.created_at ≤ a.created_at) table
        rw [hs2] at hperm hsort
        constructor
        · exact ⟨a, hperm.mem_iff.mp (List.mem_cons_self a l), hm⟩
        · intro w hw
          rcases List.mem_cons.mp (hperm.mem_iff.mpr hw) with rfl | hw'
          · exact hm.le
          · rw [← hm]
            exact List.rel_of_sorted_cons hsort w hw'
  · intro hne
    cases hs2 : List.insertionSort (fun a b => b.created_at ≤ a.created_at) table with
    | nil =>
        have hperm := List.perm_insertionSort (fun a b => b.created_at ≤ a.created_at) table
        rw [hs2] at hperm
        exact absurd (hperm.symm.eq_nil) hne
    | cons a l =>
        refine ⟨a.created_at, ?_⟩
        unfold get_last_weight_timestamp
        rw [hs2]
        rfl
  · intro refresh_seconds fails elapsed f₁ f₂ hf
    unfold monitorCycle
    simp only
    rw [hf]

/-- C4: the sleep computation of `monitor_weight` is a literal
subtract-and-sleep with no clamping: with a refresh period of 60 seconds
and an iteration that took 120 seconds, the computed sleep argument is
`-60`, which is negative, and the cycle ends in the uncaught `ValueError`
that Python's `sleep` raises on a negative argument — not in an immediate
next cycle. -/
theorem c4_sleep_goes_negative :
    sleep_for 60 120 = -60 ∧
    sleep_for 60 120 < 0 ∧
    monitorCycle 60 []
      { fetch := fun _ => FetchResult.ok [], insertFails := false, elapsed := 120 }
      = CycleResult.crash CycleError.negativeSleep [] := by
  refine ⟨by decide, by decide, ?_⟩
  rfl

/-- C6 counterexample: a non-authorization remote-fetch failure is not
caught by the sync loop — the iteration ends in a crash, not in a
logged-and-retried next cycle. -/
theorem c6_counterexample :
    monitorCycle 60 []
      { fetch := fun _ => FetchResult.remoteError, insertFails := false, elapsed := 0 }
      = CycleResult.crash CycleError.remoteFail [] := rfl

/-- C6 amended: a remote-fetch failure that escapes the API client —
authorization or otherwise — propagates out of the loop and crashes the
process with the table unchanged; only the token refresh inside the API
client is transparent, via the injected `refresh_callback`, which
persists the refreshed credential to the credential store. -/
theorem c6_fetch_failures (refresh_seconds : Int) (table : List Weight)
    (inp : CycleInput) (store : List Nat) (creds : Nat) :
    (inp.fetch (get_last_weight_timestamp table) = FetchResult.remoteError →
      monitorCycle refresh_seconds table inp =
        CycleResult.crash CycleError.remoteFail table) ∧
    (inp.fetch (get_last_weight_timestamp table) = FetchResult.authError →
      monitorCycle refresh_seconds table inp =
        CycleResult.crash CycleError.authFail table) ∧
    get_credentials (refresh_callback store creds) = some creds := by
  refine ⟨fun h => ?_, fun h => ?_, rfl⟩ <;>
    (unfold monitorCycle; rw [h])

theorem c6_witness :
    monitorCycle 60 []
      { fetch := fun _ => FetchResult.authError, insertFails := false, elapsed := 0 }
      = CycleResult.crash CycleError.authFail [] ∧
    get_credentials (refresh_callback [5] 7) = some 7 :=
  ⟨(c6_fetch_failures 60 []
      { fetch := fun _ => FetchResult.authError, insertFails := false, elapsed := 0 }
      [5] 7).2.1 rfl,
   (c6_fetch_failures 60 []
      { fetch := fun _ => FetchResult.authError, insertFails := false, elapsed := 0 }
      [5] 7).2.2⟩

/-- C9: the batch insert runs as one statement inside the
`with conn.begin(): try ... except` block; when the statement raises, the
table is left unchanged for that cycle (nothing half-applied), the
exception is caught and logged, and the loop reaches the next cycle
normally instead of crashing. -/
theorem c9_storage_failure (refresh_seconds : Int) (table : List Weight)
    (inp : CycleInput) (ms : List MeasureGroup) (batch : List Weight)
    (hf : inp.fetch (get_last_weight_timestamp table) = FetchResult.ok ms)
    (hfail : inp.insertFails = true)
    (hsleep : 0 ≤ sleep_for refresh_seconds inp.elapsed) :
    insertTransaction table batch true = (table, 0, true) ∧
    monitorCycle refresh_seconds table inp =
      CycleResult.next table 0 true (sleep_for refresh_seconds inp.elapsed) := by
  constructor
  · rfl
  · unfold monitorCycle
    rw [hf]
    have hns : ¬ (sleep_for refresh_seconds inp.elapsed < 0) := by omega
    simp only [hfail, insertTransaction, if_true, if_neg hns]

theorem c9_witness :
    monitorCycle 60 []
      { fetch := fun _ => FetchResult.ok [], insertFails := true, elapsed := 10 }
      = CycleResult.next [] 0 true 50 := by
  have h := c9_storage_failure 60 []
    { fetch := fun _ => FetchResult.ok [], insertFails := true, elapsed := 10 }
    [] [] rfl rfl (by decide)
  exact h.2.trans (by decide)

theorem lastValueOf_eq_none (t : MeasureType) (ms : List Measure)
    (h : ∀ m ∈ ms, m.type ≠ t) : lastValueOf t ms = none := by
  induction ms using List.reverseRecOn with
  | nil => rfl
  | append_singleton l m ih =>
      rw [lastValueOf_append,
        if_neg (h m (List.mem_append_right _ (List.mem_singleton_self _)))]
      exact ih (fun x hx => h x (List.mem_append_left _ hx))

/-- C7: a measurement group with no weight-type measure normalizes to a
record carrying the negative sentinel weight `-1`, the data-quality
warning (`logging.error`) fires for it, and — as the group standing for
its timestamp — the flagged record is emitted by `measures_to_weights`
rather than dropped, with the batch neither defaulted nor aborted. -/
theorem c7_missing_weight (groups : List MeasureGroup) (g : MeasureGroup)
    (hg : g ∈ groups) (hnw : ∀ m ∈ g.measures, m.type ≠ MeasureType.weight) :
    (Weight.from_measure g).weight = -1 ∧
    fromMeasureWarns g = true ∧
    (lastGroupAt groups g.created = some g →
      ∃ w ∈ measures_to_weights groups,
        w.created_at = g.created ∧ w.weight = -1 ∧ w = Weight.from_measure g) := by
  have hw : (Weight.from_measure g).weight = -1 := by
    rw [from_measure_eq]
    simp [lastValueOf_eq_none _ _ hnw]
  refine ⟨hw, ?_, ?_⟩
  · unfold fromMeasureWarns
    rw [hw]
    rfl
  · intro hlast
    obtain ⟨hnd, hlk, hmem⟩ := weightsDict_good groups
    have hl : lookupKey (weightsDict groups) g.created
        = some (Weight.from_measure g) := by
      rw [hlk, hlast]
      rfl
    obtain ⟨p, hp, hp1, hp2⟩ := lookupKey_mem hl
    have hperm : (measures_to_weights groups).Perm
        ((weightsDict groups).map Prod.snd) := List.perm_insertionSort _ _
    refine ⟨p.2, hperm.mem_iff.mpr (List.mem_map_of_mem Prod.snd hp), ?_, ?_, ?_⟩
    · rw [(hmem p hp).1, hp1]
    · rw [hp2, hw]
    · rw [hp2]

/-- Example group with a hydration measure and no weight measure. -/
def exG7 : MeasureGroup := { created := 5, measures := [{ type := .hydration, value := 300 }] }

theorem c7_witness :
    (Weight.from_measure exG7).weight = -1 ∧ fromMeasureWarns exG7 = true :=
  ⟨(c7_missing_weight [exG7] exG7 (by decide) (by decide)).1,
   (c7_missing_weight [exG7] exG7 (by decide) (by decide)).2.1⟩

/-- Example weight-table row with primary key 5. -/
def exW5 : Weight :=
  { created_at := 5, weight := 70000, fat_mass := none, muscle_mass := none,
    hydration := none, bone_mass := none, fat_ratio := none, fat_free_mass := none }

/-- Example weight-table row with primary key 8. -/
def exW8 : Weight :=
  { created_at := 8, weight := 70500, fat_mass := some 15000, muscle_mass := none,
    hydration := none, bone_mass := none, fat_ratio := none, fat_free_mass := none }

theorem c1_witness :
    insertBatch (insertBatch [] [exW5, exW8]).1 [exW5, exW8]
      = ((insertBatch [] [exW5, exW8]).1, 0) ∧
    insertBatch [exW5] [exW5] = ([exW5], 0) :=
  ⟨(c1_insertBatch_idempotent [] [exW5, exW8]).1,
   (c1_insertBatch_idempotent [exW5] [exW5, exW8]).2 exW5 (by decide)⟩

theorem c2_witness :
    get_last_weight_timestamp ([] : List Weight) = none ∧
    get_last_weight_timestamp [exW8, exW5] = some 8 ∧
    exW5.created_at ≤ 8 := by
  refine ⟨(c2_checkpoint []).1 rfl, rfl, ?_⟩
  exact ((c2_checkpoint [exW8, exW5]).2.1 8 rfl).2 exW5 (by decide)

/-- Example groups: two distinct timestamps, with timestamp 8 occurring
twice (the later occurrence must win). -/
def exGroups : List MeasureGroup :=
  [ { created := 8, measures := [{ type := .weight, value := 70500 }] },
    { created := 5, measures := [{ type := .weight, value := 70000 }] },
    { created := 8, measures := [{ type := .weight, value := 70600 },
                                 { type := .fat_mass_weight, value := 15000 }] } ]

theorem c3_witness :
    ((measures_to_weights exGroups).map (fun w => w.created_at)).Nodup ∧
    List.Sorted (fun a b => a.created_at ≤ b.created_at)
      (measures_to_weights exGroups) :=
  ⟨(c3_normalize exGroups).1, (c3_normalize exGroups).2.2.2⟩
